import Mathlib

/-!
Verification of the Sitemapper crawler (src/Sitemapper.py) against its
specification.  URLs are modelled as Lean `String`s.  Python sets are
modelled as duplicate-free lists: `set.add` inserts only when the element
is absent, `set.update` folds such inserts, and `len` is the list length;
all theorems about them are stated through membership, length and
permutation, never through a particular element order.  The external
collaborators (Python's `urllib.parse`, the `requests` transport and the
BeautifulSoup tag scan) are modelled from their documented behaviour;
every function of the repository itself is translated line by line from
src/Sitemapper.py.  String primitives are implemented structurally on
`List Char` so that every definition evaluates inside the kernel.
-/

namespace Sitemapper

/-! ## String primitives (structural models of the Python string methods) -/

/-- `listIsPre pat cs`: `pat` is a leading segment of `cs`
(`str.startswith`, on characters). -/
def listIsPre : List Char → List Char → Bool
  | [], _ => true
  | _ :: _, [] => false
  | p :: ps, c :: cs => if p = c then listIsPre ps cs else false

/-- Python `s.startswith(pat)`. -/
def strStarts (s pat : String) : Bool := listIsPre pat.data s.data

/-- Python `s.endswith(pat)`. -/
def strEnds (s pat : String) : Bool := listIsPre pat.data.reverse s.data.reverse

/-- Python `pat in s` (substring occurrence). -/
def listHasSub (pat : List Char) : List Char → Bool
  | [] => listIsPre pat []
  | c :: cs => listIsPre pat (c :: cs) || listHasSub pat cs

/-- Python `s.split(sep)` for a one-character separator: splits at every
occurrence, keeping empty pieces (`"".split("/") == [""]`). -/
def splitOnChar (sep : Char) : List Char → List (List Char)
  | [] => [[]]
  | c :: cs =>
    let r := splitOnChar sep cs
    if c = sep then [] :: r else (c :: r.headD []) :: r.tail

/-- Python `"/".join(parts)`. -/
def joinSlash (parts : List String) : String :=
  ⟨((parts.map String.data).intersperse ['/']).flatten⟩

/-- Python `s.lower()` (ASCII, which covers all inputs here). -/
def strLower (s : String) : String := ⟨s.data.map Char.toLower⟩

/-- Split a character list at the first occurrence of `sep`; `none` when
`sep` does not occur. -/
def splitFirst (sep : Char) : List Char → Option (List Char × List Char)
  | [] => none
  | c :: rest =>
    if c = sep then some ([], rest)
    else (splitFirst sep rest).map fun p => (c :: p.1, p.2)

/-! ## Model of the external library `urllib.parse`

The crawler calls `urlparse`, `urljoin` and the `.hostname` / `.path`
accessors of CPython's `urllib.parse`.  The definitions below follow the
CPython implementation of `urlsplit` / `urljoin` / `urlunsplit`,
specialised to inputs that contain no `;` (so the `params` component is
always empty) and no square brackets (no IPv6 hosts), which covers every
URL handled in this development. -/

/-- Characters CPython allows in a URL scheme (`scheme_chars`): ASCII
letters, digits, `+`, `-` and `.`. -/
def schemeChar (c : Char) : Bool :=
  c.isAlpha || c.isDigit || c = '+' || c = '-' || c = '.'

/-- Result of CPython `urlsplit` (the `params` component is always empty
on the inputs of this development and is omitted). -/
structure SplitResult where
  scheme : String
  netloc : String
  path : String
  query : String
  fragment : String
deriving DecidableEq

/-- Modelled from CPython `urllib.parse.urlsplit(url, scheme=defaultScheme)`:
a leading `letter(letter|digit|+|-|.)*:` is the scheme (lower-cased),
`//…` up to the next `/`, `?` or `#` is the netloc, then the fragment is
split off at the first `#` and the query at the first `?`. -/
def urlsplit (url : String) (defaultScheme : String) : SplitResult :=
  let cs := url.data
  let schemeRest : String × List Char :=
    match splitFirst ':' cs with
    | some (pre, post) =>
      if !pre.isEmpty && (pre.headD '0').isAlpha && pre.all schemeChar then
        (strLower ⟨pre⟩, post)
      else (defaultScheme, cs)
    | none => (defaultScheme, cs)
  let scheme := schemeRest.1
  let rest := schemeRest.2
  let netlocRest : List Char × List Char :=
    match rest with
    | '/' :: '/' :: r =>
      let nl := r.takeWhile fun c => !(c = '/' || c = '?' || c = '#')
      (nl, r.drop nl.length)
    | _ => ([], rest)
  let netloc := netlocRest.1
  let rest := netlocRest.2
  let restFrag : List Char × List Char :=
    match splitFirst '#' rest with
    | some (a, b) => (a, b)
    | none => (rest, [])
  let pathQuery : List Char × List Char :=
    match splitFirst '?' restFrag.1 with
    | some (a, b) => (a, b)
    | none => (restFrag.1, [])
  { scheme := scheme, netloc := ⟨netloc⟩, path := ⟨pathQuery.1⟩,
    query := ⟨pathQuery.2⟩, fragment := ⟨restFrag.2⟩ }

/-- Modelled from CPython: the `.hostname` attribute of a parse result.
The part of the netloc after the last `@` and before the first `:` is
the host, lower-cased; `None` (here `none`) when it is empty. -/
def SplitResult.hostname (r : SplitResult) : Option String :=
  let afterAt := (r.netloc.data.reverse.takeWhile fun c => !(c = '@')).reverse
  let host := afterAt.takeWhile fun c => !(c = ':')
  if host.isEmpty then none else some (strLower ⟨host⟩)

/-- Modelled from CPython `urllib.parse.urlunsplit` (no `params`). -/
def urlunsplit (r : SplitResult) : String :=
  let url := r.path
  let url :=
    if r.netloc ≠ "" ∨ (url ≠ "" ∧ strStarts url "//") then
      "//" ++ r.netloc ++ (if url ≠ "" ∧ ¬(strStarts url "/" = true) then "/" ++ url else url)
    else url
  let url := if r.scheme ≠ "" then r.scheme ++ ":" ++ url else url
  let url := if r.query ≠ "" then url ++ "?" ++ r.query else url
  if r.fragment ≠ "" then url ++ "#" ++ r.fragment else url

/-- CPython `urllib.parse.uses_relative`. -/
def uses_relative : List String :=
  ["", "ftp", "http", "gopher", "nntp", "imap", "wais", "file", "https",
   "shttp", "mms", "prospero", "rtsp", "rtspu", "sftp", "svn", "svn+ssh",
   "ws", "wss"]

/-- CPython `urllib.parse.uses_netloc`. -/
def uses_netloc : List String :=
  ["", "ftp", "http", "gopher", "nntp", "telnet", "imap", "wais", "file",
   "mms", "https", "shttp", "snews", "prospero", "rtsp", "rtspu", "rsync",
   "svn", "svn+ssh", "sftp", "nfs", "git", "git+ssh", "ws", "wss",
   "itms-services"]

/-- CPython's in-place `segments[1:-1] = filter(None, segments[1:-1])`:
drop empty strings from everything strictly between the first and last
elements. -/
def filterMiddle : List String → List String
  | [] => []
  | [a] => [a]
  | a :: rest =>
    a :: ((rest.dropLast.filter fun s => decide (s ≠ "")) ++ [rest.getLastD ""])

/-- Modelled from CPython `urllib.parse.urljoin(base, url)` (no `params`,
no whitespace stripping; inputs are clean).  An absolute `url` whose
scheme differs from the base's or is not in `uses_relative` is returned
verbatim; otherwise the netloc is inherited and relative paths are merged
with `.`/`..` resolution exactly as in CPython. -/
def urljoin (base url : String) : String :=
  if base = "" then url
  else if url = "" then base
  else
    let b := urlsplit base ""
    let u := urlsplit url b.scheme
    if u.scheme ≠ b.scheme ∨ u.scheme ∉ uses_relative then url
    else if u.scheme ∈ uses_netloc ∧ u.netloc ≠ "" then
      urlunsplit u
    else
      let netloc := if u.scheme ∈ uses_netloc then b.netloc else u.netloc
      if u.path = "" then
        let query := if u.query = "" then b.query else u.query
        urlunsplit { scheme := u.scheme, netloc := netloc, path := b.path,
                     query := query, fragment := u.fragment }
      else
        let base_parts := (splitOnChar '/' b.path.data).map fun l => (⟨l⟩ : String)
        let base_parts := if base_parts.getLast? ≠ some "" then base_parts.dropLast else base_parts
        let segments :=
          if strStarts u.path "/" then (splitOnChar '/' u.path.data).map fun l => (⟨l⟩ : String)
          else filterMiddle (base_parts ++ (splitOnChar '/' u.path.data).map fun l => (⟨l⟩ : String))
        let resolved := segments.foldl
          (fun acc seg =>
            if seg = ".." then acc.dropLast
            else if seg = "." then acc
            else acc ++ [seg]) ([] : List String)
        let resolved :=
          if segments.getLast? = some "." ∨ segments.getLast? = some ".." then
            resolved ++ [""]
          else resolved
        let joined := joinSlash resolved
        let path := if joined = "" then "/" else joined
        urlunsplit { scheme := u.scheme, netloc := netloc, path := path,
                     query := u.query, fragment := u.fragment }

/-! ## Python sets as duplicate-free lists -/

/-- Python `set.add`: insert only when absent. -/
def setAdd (s : List String) (x : String) : List String :=
  if x ∈ s then s else s ++ [x]

/-- Python `set.update`: add every element of `t`. -/
def setUnion (s t : List String) : List String := t.foldl setAdd s

/-! ## Translations of src/Sitemapper.py -/

/-- Translation of `get_hostname` (src/Sitemapper.py lines 75-77):
`hostname = urlparse(url).hostname or ""` followed by
`hostname.lstrip("www.") if hostname.startswith("www.") else hostname`.
Python's `str.lstrip("www.")` removes leading characters drawn from the
character set of its argument, i.e. from `{'w', '.'}`. -/
def get_hostname (url : String) : String :=
  let hostname := ((urlsplit url "").hostname).getD ""
  if strStarts hostname "www." then
    ⟨hostname.data.dropWhile fun c => decide (c ∈ "www.".data)⟩
  else hostname

/-- Translation of `split_links` (lines 80-93): the loop adds each link
whose `get_hostname` equals the base's to `internal_links` and every
other link to `external_links`. -/
def split_links (base_url : String) (links : List String) :
    List String × List String :=
  let base_host := get_hostname base_url
  (links.filter fun link => decide (get_hostname link = base_host),
   links.filter fun link => decide (¬(get_hostname link = base_host)))

/-- Translation of `get_path_depth` (lines 96-98): the number of
non-empty `/`-separated segments of `urlparse(url).path`. -/
def get_path_depth (url : String) : Nat :=
  ((splitOnChar '/' (urlsplit url "").path.data).filter fun seg =>
    decide (seg ≠ [])).length

/-- Python `path.rsplit("/", 1)[0]`: everything before the last `/`, or
the whole string when it contains no `/`. -/
def pyRsplitSlashHead (path : String) : String :=
  let cs := path.data
  if '/' ∈ cs then ⟨(((cs.reverse).dropWhile fun c => !(c = '/')).drop 1).reverse⟩
  else path

/-- How a Python f-string renders `parsed.hostname`: `None` becomes the
text `"None"`. -/
def hostnameStr : Option String → String
  | none => "None"
  | some h => h

/-- The per-URL body of `extract_directories` (lines 168-175): keep the
path if it ends in `/`, otherwise truncate it after the last `/`, and
rebuild the URL as `f"{parsed.scheme}://{parsed.hostname}{path}"`. -/
def directory_of (url : String) : String :=
  let parsed := urlsplit url ""
  let path := parsed.path
  let path := if strEnds path "/" then path else pyRsplitSlashHead path ++ "/"
  parsed.scheme ++ "://" ++ hostnameStr parsed.hostname ++ path

/-- Translation of `extract_directories` (lines 166-177): the loop
`dirs.add(directory_url)` over the link set. -/
def extract_directories (links : List String) : List String :=
  links.foldl (fun dirs url => setAdd dirs (directory_of url)) []

/-- What `requests.get` returns in the model: the status code, the
`Content-Type` header, and the list of href/src attribute values that
BeautifulSoup's tag scan (lines 50-52) would produce from the body, in
document order (tags without the attribute are omitted; `if not link`
skips are modelled by empty strings in the list). -/
structure HttpResponse where
  status_code : Nat
  content_type : String
  refs : List String
deriving DecidableEq

/-- The HTTP transport, abstracted: `none` models a raised
`requests.RequestException`. -/
def Fetch : Type := String → Option HttpResponse

/-- One iteration of the classification loop of `extract_links`
(lines 53-67), acting on the accumulator
`(links, mailto_links, non_html_links)`. -/
def classifyStep (url : String) (acc : List String × List String × List String)
    (link : String) : List String × List String × List String :=
  if link = "" then acc
  else if (strStarts link "SMS:" || strStarts link "tel:" ||
           strStarts link "javascript:" || strStarts link "data:") ||
          strStarts link "#" then
    (acc.1, acc.2.1, setAdd acc.2.2 link)
  else if strStarts link "mailto:" then
    (acc.1, setAdd acc.2.1 link, acc.2.2)
  else
    (setAdd acc.1 (urljoin url link), acc.2.1, acc.2.2)

/-- The classification loop of `extract_links` (lines 45-68) over all
candidate references of the page. -/
def classifyRefs (url : String) (refs : List String) :
    List String × List String × List String :=
  refs.foldl (classifyStep url) ([], [], [])

/-- Translation of `extract_links` (lines 18-69): a failed request, a
status code outside `[200, 400)`, or a `Content-Type` not containing
`"html"` yield three empty sets; otherwise the candidate references are
classified. -/
def extract_links (fetch : Fetch) (url : String) :
    List String × List String × List String :=
  match fetch url with
  | none => ([], [], [])
  | some response =>
    if ¬(200 ≤ response.status_code ∧ response.status_code < 400) then ([], [], [])
    else if ¬(listHasSub "html".data response.content_type.data = true) then ([], [], [])
    else classifyRefs url response.refs

/-- Translation of `CrawlConfig`: the parsed command-line arguments
(lines 7-15).  `threads`, `verbose` and `full_links` are carried but, in
the source, influence only scheduling and printing. -/
structure CrawlConfig where
  threads : Int
  max : Int
  depth : Int
  verbose : Bool
  full_links : Bool
deriving DecidableEq

/-- Translation of the inner worker `process_url` (lines 113-126): skip
URLs whose (stripped) hostname differs from the seed's, otherwise fetch,
extract and split.  The `try`/`except` wrapper is invisible in the pure
model. -/
def process_url (fetch : Fetch) (start_url url : String) :
    String × List String × List String × List String × List String :=
  if get_hostname url ≠ get_hostname start_url then
    (url, [], [], [], [])
  else
    let r := extract_links fetch url
    let s := split_links start_url r.1
    (url, s.1, s.2, r.2.1, r.2.2)

/-- The mutable state of `crawl_website` (lines 104-110 and the loop
flag of line 128). -/
structure CrawlState where
  visited : List String
  to_visit : List String
  all_internal : List String
  all_external : List String
  mailto_links : List String
  non_html_links : List String
  done : Bool
deriving DecidableEq

/-- Translation of lines 152-155: add each internal link that is not
visited, not already queued, and inside the depth limit to the frontier. -/
def addLinks (cfg : CrawlConfig) (visited : List String)
    (to_visit internal : List String) : List String :=
  internal.foldl
    (fun tv link =>
      if link ∉ visited ∧ link ∉ tv then
        if cfg.depth = 0 ∨ (get_path_depth link : Int) ≤ cfg.depth then tv ++ [link]
        else tv
      else tv)
    to_visit

/-- Translation of the body of the `for future in as_completed(...)`
loop (lines 139-160) for one completed task: mark the URL visited, stop
(`done = True`, `break`, committing nothing further) if the max-count
trigger fires, otherwise add the admissible internal links to the
frontier and union the four result sets into the accumulators.
Python's `if args.max and ...` truthiness test is `cfg.max ≠ 0`. -/
def commitResult (cfg : CrawlConfig) (st : CrawlState)
    (result : String × List String × List String × List String × List String) :
    CrawlState :=
  let current_url := result.1
  let internal := result.2.1
  let visited' := setAdd st.visited current_url
  if cfg.max ≠ 0 ∧ (visited'.length : Int) ≥ cfg.max then
    { st with visited := visited', done := true }
  else
    { visited := visited'
      to_visit := addLinks cfg visited' st.to_visit internal
      all_internal := setUnion st.all_internal internal
      all_external := setUnion st.all_external result.2.2.1
      mailto_links := setUnion st.mailto_links result.2.2.2.1
      non_html_links := setUnion st.non_html_links result.2.2.2.2
      done := st.done }

/-- Translation of the completion loop (lines 138-160): process the
results of one batch in their (nondeterministic) completion order; a
fired max-count trigger sets `done` and breaks, discarding the rest of
the batch. -/
def runBatch (fetch : Fetch) (cfg : CrawlConfig) (start_url : String) :
    CrawlState → List String → CrawlState
  | st, [] => st
  | st, url :: rest =>
    let st' := commitResult cfg st (process_url fetch start_url url)
    if st'.done = true then st' else runBatch fetch cfg start_url st' rest

/-- Translation of one iteration of the `while to_visit and not done`
loop (lines 132-160): snapshot the frontier as the batch, clear it, and
process the completions in the order given by `order` (the
nondeterministic `as_completed` order of this batch). -/
def stepBatch (fetch : Fetch) (cfg : CrawlConfig) (start_url : String)
    (st : CrawlState) (order : List String) : CrawlState :=
  runBatch fetch cfg start_url { st with to_visit := [] } order

/-- The state at the top of `crawl_website` (lines 104-110, 128):
frontier `{start_url}`, everything else empty. -/
def initState (start_url : String) : CrawlState :=
  { visited := [], to_visit := [start_url], all_internal := [],
    all_external := [], mailto_links := [], non_html_links := [],
    done := false }

/-- The crawl state after `fuel` iterations of the while loop.  `order n b`
is the completion order `as_completed` yields for batch `b` of
iteration `n`; iterations after the loop guard fails change nothing. -/
def crawlSteps (fetch : Fetch) (cfg : CrawlConfig) (start_url : String)
    (order : Nat → List String → List String) : Nat → CrawlState
  | 0 => initState start_url
  | n + 1 =>
    let st := crawlSteps fetch cfg start_url order n
    if st.to_visit ≠ [] ∧ st.done = false then
      stepBatch fetch cfg start_url st (order n st.to_visit)
    else st

/-- Translation of `crawl_website`'s return value (line 162): the four
accumulated link sets once the loop has run for `fuel` iterations. -/
def crawl_website (fetch : Fetch) (cfg : CrawlConfig) (start_url : String)
    (order : Nat → List String → List String) (fuel : Nat) :
    List String × List String × List String × List String :=
  let st := crawlSteps fetch cfg start_url order fuel
  (st.all_internal, st.all_external, st.mailto_links, st.non_html_links)

/-- A completion-order oracle is valid when each batch's completions are
exactly its dispatched tasks, in some order. -/
def validOrder (order : Nat → List String → List String) : Prop :=
  ∀ n b, List.Perm (order n b) b

/-- The completion order that coincides with dispatch order. -/
def idOrder : Nat → List String → List String := fun _ b => b

/-- The while-loop guard of line 132 has failed: the crawl has stopped. -/
def halted (st : CrawlState) : Prop := st.to_visit = [] ∨ st.done = true

instance haltedDecidable (st : CrawlState) : Decidable (halted st) :=
  inferInstanceAs (Decidable (st.to_visit = [] ∨ st.done = true))

/-- Termination measure for the crawl loop under a positive `max`:
twice the number of still-allowed visits, plus one when the frontier
meets the visited set. -/
def mu (cfg : CrawlConfig) (st : CrawlState) : Nat :=
  2 * (cfg.max.toNat - st.visited.length) +
    (if ∀ x ∈ st.to_visit, x ∉ st.visited then 0 else 1)

/-! ## Concrete transports used for witnesses and counterexamples -/

/-- A site whose root page carries a single internal link. -/
def fetchOne : Fetch := fun u =>
  if u = "http://s/" then some ⟨200, "text/html", ["http://s/a"]⟩ else none

/-- A site where page `a` links to its sibling `b`, which is also linked
from the root. -/
def fetchRace : Fetch := fun u =>
  if u = "http://s/" then some ⟨200, "text/html", ["http://s/a", "http://s/b"]⟩
  else if u = "http://s/a" then some ⟨200, "text/html", ["http://s/b"]⟩
  else if u = "http://s/b" then some ⟨200, "text/html", []⟩
  else none

/-- A site whose root page has no links at all. -/
def fetchLeaf : Fetch := fun u =>
  if u = "http://s/" then some ⟨200, "text/html", []⟩ else none

/-- A site whose root page carries one internal link of path depth 3. -/
def fetchDeep : Fetch := fun u =>
  if u = "http://s/" then some ⟨200, "text/html", ["http://s/a/b/c"]⟩ else none

/-- A page carrying one lowercase `sms:` reference and one of each
correctly handled non-crawlable reference. -/
def fetchSms : Fetch := fun u =>
  if u = "http://s/" then
    some ⟨200, "text/html", ["sms:+123", "tel:+1", "#a", "javascript:x", "data:y"]⟩
  else none

/-- `-m 1`, no depth limit. -/
def cfgMax1 : CrawlConfig := ⟨1, 1, 0, false, false⟩

/-- `-m 2`, no depth limit. -/
def cfgMax2 : CrawlConfig := ⟨1, 2, 0, false, false⟩

/-- No limits at all. -/
def cfgFree : CrawlConfig := ⟨1, 0, 0, false, false⟩

/-- `-m 1 -d 1`. -/
def cfgMax1Depth1 : CrawlConfig := ⟨1, 1, 1, false, false⟩

/-- `-d 2`, no visit limit. -/
def cfgDepth2 : CrawlConfig := ⟨1, 0, 2, false, false⟩

/-- `-m 1` with `-v` and `-f` switched on. -/
def cfgMax1Loud : CrawlConfig := ⟨1, 1, 0, true, true⟩

/-! ## Properties of the set model -/

theorem setAdd_mem {s : List String} {x y : String} :
    y ∈ setAdd s x ↔ y ∈ s ∨ y = x := by
  unfold setAdd
  split
  · next h =>
    constructor
    · exact Or.inl
    · rintro (hy | rfl)
      · exact hy
      · exact h
  · simp [List.mem_append]

theorem setAdd_sub {s : List String} {x : String} : s ⊆ setAdd s x :=
  fun _ hy => setAdd_mem.mpr (Or.inl hy)

theorem mem_setAdd_self {s : List String} {x : String} : x ∈ setAdd s x :=
  setAdd_mem.mpr (Or.inr rfl)

theorem setAdd_isPre {s : List String} {x : String} : s <+: setAdd s x := by
  unfold setAdd
  split
  · exact List.prefix_rfl
  · exact List.prefix_append s [x]

theorem setAdd_length {s : List String} {x : String} :
    (setAdd s x).length = if x ∈ s then s.length else s.length + 1 := by
  unfold setAdd
  split <;> simp

theorem setAdd_length_le {s : List String} {x : String} :
    (setAdd s x).length ≤ s.length + 1 := by
  rw [setAdd_length]; split <;> omega

theorem length_le_setAdd {s : List String} {x : String} :
    s.length ≤ (setAdd s x).length := by
  rw [setAdd_length]; split <;> omega

theorem setAdd_eq_self {s : List String} {x : String} (h : x ∈ s) :
    setAdd s x = s := by
  unfold setAdd; exact if_pos h

theorem setAdd_length_of_not_mem {s : List String} {x : String} (h : x ∉ s) :
    (setAdd s x).length = s.length + 1 := by
  rw [setAdd_length, if_neg h]

theorem setUnion_mem {s t : List String} {y : String} :
    y ∈ setUnion s t ↔ y ∈ s ∨ y ∈ t := by
  induction t generalizing s with
  | nil => simp [setUnion]
  | cons a t ih =>
    show y ∈ setUnion (setAdd s a) t ↔ _
    rw [ih, setAdd_mem]
    simp [List.mem_cons, or_assoc]

theorem setUnion_sub {s t : List String} : s ⊆ setUnion s t :=
  fun _ hy => setUnion_mem.mpr (Or.inl hy)

theorem setUnion_sub_right {s t : List String} : t ⊆ setUnion s t :=
  fun _ hy => setUnion_mem.mpr (Or.inr hy)

theorem setUnion_nil {s : List String} : setUnion s [] = s := rfl

/-! ## Properties of the frontier update -/

theorem addLinks_nil {cfg : CrawlConfig} {visited tv : List String} :
    addLinks cfg visited tv [] = tv := rfl

theorem addLinks_cons {cfg : CrawlConfig} {visited tv : List String}
    {link : String} {internal : List String} :
    addLinks cfg visited tv (link :: internal) =
      addLinks cfg visited
        (if link ∉ visited ∧ link ∉ tv then
          if cfg.depth = 0 ∨ (get_path_depth link : Int) ≤ cfg.depth then tv ++ [link]
          else tv
        else tv)
        internal := rfl

theorem addLinks_sub {cfg : CrawlConfig} {visited : List String} :
    ∀ {internal tv : List String}, tv ⊆ addLinks cfg visited tv internal := by
  intro internal
  induction internal with
  | nil => intro tv; exact fun _ h => h
  | cons link internal ih =>
    intro tv
    rw [addLinks_cons]
    refine List.Subset.trans ?_ ih
    by_cases h1 : link ∉ visited ∧ link ∉ tv
    · by_cases h2 : cfg.depth = 0 ∨ (get_path_depth link : Int) ≤ cfg.depth
      · rw [if_pos h1, if_pos h2]
        exact fun y hy => List.mem_append.mpr (Or.inl hy)
      · rw [if_pos h1, if_neg h2]
        exact fun _ h => h
    · rw [if_neg h1]
      exact fun _ h => h

theorem addLinks_mem {cfg : CrawlConfig} {visited : List String} :
    ∀ {internal tv : List String} {x : String},
      x ∈ addLinks cfg visited tv internal →
      x ∈ tv ∨ (x ∈ internal ∧ x ∉ visited ∧ x ∉ tv ∧
        (cfg.depth = 0 ∨ (get_path_depth x : Int) ≤ cfg.depth)) := by
  intro internal
  induction internal with
  | nil => intro tv x h; exact Or.inl h
  | cons link internal ih =>
    intro tv x h
    rw [addLinks_cons] at h
    by_cases h1 : link ∉ visited ∧ link ∉ tv
    · by_cases h2 : cfg.depth = 0 ∨ (get_path_depth link : Int) ≤ cfg.depth
      · rw [if_pos h1, if_pos h2] at h
        rcases ih h with h3 | ⟨h3, h4, h5, h6⟩
        · rcases List.mem_append.mp h3 with h4 | h4
          · exact Or.inl h4
          · rcases List.mem_singleton.mp h4 with rfl
            exact Or.inr ⟨List.mem_cons_self _ _, h1.1, h1.2, h2⟩
        · refine Or.inr ⟨List.mem_cons_of_mem _ h3, h4, fun hc => h5 ?_, h6⟩
          exact List.mem_append.mpr (Or.inl hc)
      · rw [if_pos h1, if_neg h2] at h
        rcases ih h with h3 | ⟨h3, h4, h5, h6⟩
        · exact Or.inl h3
        · exact Or.inr ⟨List.mem_cons_of_mem _ h3, h4, h5, h6⟩
    · rw [if_neg h1] at h
      rcases ih h with h3 | ⟨h3, h4, h5, h6⟩
      · exact Or.inl h3
      · exact Or.inr ⟨List.mem_cons_of_mem _ h3, h4, h5, h6⟩

/-! ## Properties of the worker and the commit step -/

theorem process_url_fst (fetch : Fetch) (s u : String) :
    (process_url fetch s u).1 = u := by
  unfold process_url
  split <;> rfl

theorem process_url_internal_host {fetch : Fetch} {s u x : String}
    (h : x ∈ (process_url fetch s u).2.1) : get_hostname x = get_hostname s := by
  unfold process_url at h
  split at h
  · simp at h
  · have h2 := (List.mem_filter.mp h).2
    simpa using h2

theorem commitResult_visited (cfg : CrawlConfig) (st : CrawlState)
    (r : String × List String × List String × List String × List String) :
    (commitResult cfg st r).visited = setAdd st.visited r.1 := by
  simp only [commitResult]
  split <;> rfl

theorem commitResult_trigger {cfg : CrawlConfig} {st : CrawlState}
    {r : String × List String × List String × List String × List String}
    (h : cfg.max ≠ 0 ∧ ((setAdd st.visited r.1).length : Int) ≥ cfg.max) :
    commitResult cfg st r = { st with visited := setAdd st.visited r.1, done := true } := by
  simp only [commitResult]
  rw [if_pos h]

theorem commitResult_no_trigger {cfg : CrawlConfig} {st : CrawlState}
    {r : String × List String × List String × List String × List String}
    (h : ¬(cfg.max ≠ 0 ∧ ((setAdd st.visited r.1).length : Int) ≥ cfg.max)) :
    commitResult cfg st r =
      { visited := setAdd st.visited r.1
        to_visit := addLinks cfg (setAdd st.visited r.1) st.to_visit r.2.1
        all_internal := setUnion st.all_internal r.2.1
        all_external := setUnion st.all_external r.2.2.1
        mailto_links := setUnion st.mailto_links r.2.2.2.1
        non_html_links := setUnion st.non_html_links r.2.2.2.2
        done := st.done } := by
  simp only [commitResult]
  rw [if_neg h]

/-! ## Properties of the batch loop -/

theorem runBatch_nil {fetch : Fetch} {cfg : CrawlConfig} {s : String} {st : CrawlState} :
    runBatch fetch cfg s st [] = st := rfl

theorem runBatch_cons {fetch : Fetch} {cfg : CrawlConfig} {s : String}
    {st : CrawlState} {u : String} {rest : List String} :
    runBatch fetch cfg s st (u :: rest) =
      if (commitResult cfg st (process_url fetch s u)).done = true then
        commitResult cfg st (process_url fetch s u)
      else runBatch fetch cfg s (commitResult cfg st (process_url fetch s u)) rest := rfl

theorem runBatch_visited_isPre {fetch : Fetch} {cfg : CrawlConfig} {s : String} :
    ∀ {l : List String} {st : CrawlState},
      st.visited <+: (runBatch fetch cfg s st l).visited := by
  intro l
  induction l with
  | nil => intro st; exact List.prefix_rfl
  | cons u rest ih =>
    intro st
    rw [runBatch_cons]
    have h1 : st.visited <+: (commitResult cfg st (process_url fetch s u)).visited := by
      rw [commitResult_visited]; exact setAdd_isPre
    split
    · exact h1
    · exact List.IsPrefix.trans h1 ih

theorem runBatch_visited_sub {fetch : Fetch} {cfg : CrawlConfig} {s : String}
    {l : List String} {st : CrawlState} :
    st.visited ⊆ (runBatch fetch cfg s st l).visited :=
  runBatch_visited_isPre.subset

theorem runBatch_visited_len {fetch : Fetch} {cfg : CrawlConfig} {s : String}
    {l : List String} {st : CrawlState} :
    st.visited.length ≤ (runBatch fetch cfg s st l).visited.length :=
  runBatch_visited_isPre.length_le

theorem runBatch_growth {fetch : Fetch} {cfg : CrawlConfig} {s : String}
    {st : CrawlState} {u : String} {rest : List String} (hu : u ∉ st.visited) :
    st.visited.length + 1 ≤ (runBatch fetch cfg s st (u :: rest)).visited.length := by
  rw [runBatch_cons]
  have hv : (commitResult cfg st (process_url fetch s u)).visited = setAdd st.visited u := by
    rw [commitResult_visited, process_url_fst]
  have hlen : (commitResult cfg st (process_url fetch s u)).visited.length =
      st.visited.length + 1 := by
    rw [hv, setAdd_length_of_not_mem hu]
  split
  · omega
  · have h2 := @runBatch_visited_len fetch cfg s rest
      (commitResult cfg st (process_url fetch s u))
    omega

theorem runBatch_card {fetch : Fetch} {cfg : CrawlConfig} {s : String}
    (hmax : cfg.max ≠ 0) :
    ∀ {l : List String} {st : CrawlState}, st.done = false →
      ((st.visited.length : Int) < cfg.max) →
      (((runBatch fetch cfg s st l).done = false →
          (((runBatch fetch cfg s st l).visited.length : Int) < cfg.max)) ∧
       ((runBatch fetch cfg s st l).done = true →
          (((runBatch fetch cfg s st l).visited.length : Int) = cfg.max))) := by
  intro l
  induction l with
  | nil =>
    intro st hdone hlt
    refine ⟨fun _ => hlt, fun hd => ?_⟩
    rw [runBatch_nil, hdone] at hd
    exact absurd hd (by simp)
  | cons u rest ih =>
    intro st hdone hlt
    rw [runBatch_cons]
    have hle : (setAdd st.visited (process_url fetch s u).1).length ≤ st.visited.length + 1 :=
      setAdd_length_le
    have hge : st.visited.length ≤ (setAdd st.visited (process_url fetch s u).1).length :=
      length_le_setAdd
    by_cases htr : cfg.max ≠ 0 ∧
        ((setAdd st.visited (process_url fetch s u).1).length : Int) ≥ cfg.max
    · rw [commitResult_trigger htr]
      have heq : ((setAdd st.visited (process_url fetch s u).1).length : Int) = cfg.max := by
        have h1 := htr.2
        omega
      refine ⟨fun hd => absurd hd (by simp), fun _ => heq⟩
    · rw [commitResult_no_trigger htr]
      have hlt' : ((setAdd st.visited (process_url fetch s u).1).length : Int) < cfg.max := by
        rcases not_and_or.mp htr with h | h
        · exact absurd hmax h
        · omega
      have hdone' :
          ({ visited := setAdd st.visited (process_url fetch s u).1
             to_visit := addLinks cfg (setAdd st.visited (process_url fetch s u).1)
               st.to_visit (process_url fetch s u).2.1
             all_internal := setUnion st.all_internal (process_url fetch s u).2.1
             all_external := setUnion st.all_external (process_url fetch s u).2.2.1
             mailto_links := setUnion st.mailto_links (process_url fetch s u).2.2.2.1
             non_html_links := setUnion st.non_html_links (process_url fetch s u).2.2.2.2
             done := st.done } : CrawlState).done = false := hdone
      rw [if_neg (by simp [hdone])]
      exact ih hdone' hlt'

theorem runBatch_nogrowth {fetch : Fetch} {cfg : CrawlConfig} {s : String} :
    ∀ {l : List String} {st : CrawlState},
      (runBatch fetch cfg s st l).visited = st.visited →
      ∀ x ∈ (runBatch fetch cfg s st l).to_visit, x ∈ st.to_visit ∨ x ∉ st.visited := by
  intro l
  induction l with
  | nil => intro st _ x hx; exact Or.inl hx
  | cons u rest ih =>
    intro st hvis x hx
    rw [runBatch_cons] at hvis hx
    by_cases htr : cfg.max ≠ 0 ∧
        ((setAdd st.visited (process_url fetch s u).1).length : Int) ≥ cfg.max
    · rw [commitResult_trigger htr] at hvis hx
      rw [if_pos rfl] at hvis hx
      exact Or.inl hx
    · rw [commitResult_no_trigger htr] at hvis hx
      by_cases hdone : st.done = true
      · rw [if_pos hdone] at hvis hx
        rcases addLinks_mem hx with h1 | ⟨_, h2, h3, _⟩
        · exact Or.inl h1
        · exact Or.inr fun hc => h2 (setAdd_sub hc)
      · rw [if_neg (by simpa using hdone)] at hvis hx
        have hpre :=
          @runBatch_visited_isPre fetch cfg s rest
            { visited := setAdd st.visited (process_url fetch s u).1
              to_visit := addLinks cfg (setAdd st.visited (process_url fetch s u).1)
                st.to_visit (process_url fetch s u).2.1
              all_internal := setUnion st.all_internal (process_url fetch s u).2.1
              all_external := setUnion st.all_external (process_url fetch s u).2.2.1
              mailto_links := setUnion st.mailto_links (process_url fetch s u).2.2.2.1
              non_html_links := setUnion st.non_html_links (process_url fetch s u).2.2.2.2
              done := st.done }
      -- the visited list cannot have grown, so the head URL was already visited
        have hmem : (process_url fetch s u).1 ∈ st.visited := by
          by_contra hc
          have h2 := hpre.length_le
          rw [hvis, setAdd_length_of_not_mem hc] at h2
          omega
        rw [setAdd_eq_self hmem] at hvis hx hpre
        rcases ih hvis x hx with h1 | h1
        · rcases addLinks_mem h1 with h2 | ⟨_, h3, _, _⟩
          · exact Or.inl h2
          · exact Or.inr h3
        · exact Or.inr h1

theorem runBatch_to_visit_prop {fetch : Fetch} {cfg : CrawlConfig} {s : String}
    (Q : String → Prop)
    (hnew : ∀ url x, x ∈ (process_url fetch s url).2.1 →
      (cfg.depth = 0 ∨ (get_path_depth x : Int) ≤ cfg.depth) → Q x) :
    ∀ {l : List String} {st : CrawlState}, (∀ x ∈ st.to_visit, Q x) →
      ∀ x ∈ (runBatch fetch cfg s st l).to_visit, Q x := by
  intro l
  induction l with
  | nil => intro st hst x hx; exact hst x hx
  | cons u rest ih =>
    intro st hst x hx
    rw [runBatch_cons] at hx
    by_cases htr : cfg.max ≠ 0 ∧
        ((setAdd st.visited (process_url fetch s u).1).length : Int) ≥ cfg.max
    · rw [commitResult_trigger htr, if_pos rfl] at hx
      exact hst x hx
    · rw [commitResult_no_trigger htr] at hx
      have hst' : ∀ y ∈ addLinks cfg (setAdd st.visited (process_url fetch s u).1)
          st.to_visit (process_url fetch s u).2.1, Q y := by
        intro y hy
        rcases addLinks_mem hy with h1 | ⟨h1, _, _, h4⟩
        · exact hst y h1
        · exact hnew u y h1 h4
      split at hx
      · exact hst' x hx
      · exact ih hst' x hx

/-! ## Properties of the crawl loop -/

theorem crawlSteps_zero {fetch : Fetch} {cfg : CrawlConfig} {s : String}
    {ord : Nat → List String → List String} :
    crawlSteps fetch cfg s ord 0 = initState s := rfl

theorem crawlSteps_succ {fetch : Fetch} {cfg : CrawlConfig} {s : String}
    {ord : Nat → List String → List String} {n : Nat} :
    crawlSteps fetch cfg s ord (n + 1) =
      if (crawlSteps fetch cfg s ord n).to_visit ≠ [] ∧
          (crawlSteps fetch cfg s ord n).done = false then
        stepBatch fetch cfg s (crawlSteps fetch cfg s ord n)
          (ord n (crawlSteps fetch cfg s ord n).to_visit)
      else crawlSteps fetch cfg s ord n := rfl

theorem crawlSteps_to_visit_prop {fetch : Fetch} {cfg : CrawlConfig} {s : String}
    {ord : Nat → List String → List String} (Q : String → Prop) (hseed : Q s)
    (hnew : ∀ url x, x ∈ (process_url fetch s url).2.1 →
      (cfg.depth = 0 ∨ (get_path_depth x : Int) ≤ cfg.depth) → Q x) :
    ∀ n, ∀ x ∈ (crawlSteps fetch cfg s ord n).to_visit, Q x := by
  intro n
  induction n with
  | zero =>
    intro x hx
    have : x = s := by simpa [crawlSteps_zero, initState] using hx
    rw [this]; exact hseed
  | succ n ih =>
    rw [crawlSteps_succ]
    split
    · exact runBatch_to_visit_prop Q hnew fun x hx =>
        absurd hx (List.not_mem_nil x)
    · exact ih

theorem crawlSteps_card {fetch : Fetch} {cfg : CrawlConfig} {s : String}
    {ord : Nat → List String → List String} (hpos : 0 < cfg.max) :
    ∀ n,
      ((crawlSteps fetch cfg s ord n).done = false →
        (((crawlSteps fetch cfg s ord n).visited.length : Int) < cfg.max)) ∧
      ((crawlSteps fetch cfg s ord n).done = true →
        (((crawlSteps fetch cfg s ord n).visited.length : Int) = cfg.max)) := by
  intro n
  induction n with
  | zero =>
    constructor
    · intro _
      simpa [crawlSteps_zero, initState] using hpos
    · intro h
      simp [crawlSteps_zero, initState] at h
  | succ n ih =>
    rw [crawlSteps_succ]
    split
    · next hg =>
      exact @runBatch_card fetch cfg s (by omega)
        (ord n (crawlSteps fetch cfg s ord n).to_visit)
        { crawlSteps fetch cfg s ord n with to_visit := [] }
        hg.2 (ih.1 hg.2)
    · exact ih

theorem mu_initState {cfg : CrawlConfig} {s : String} :
    mu cfg (initState s) = 2 * cfg.max.toNat := by
  unfold mu initState
  rw [if_pos]
  · simp
  · intro x _
    exact List.not_mem_nil x

theorem step_decrease (fetch : Fetch) (cfg : CrawlConfig) (s : String)
    (hpos : 0 < cfg.max) (st : CrawlState) (ord' : List String)
    (hdone : st.done = false) (htv : st.to_visit ≠ [])
    (hlt : (st.visited.length : Int) < cfg.max)
    (hperm : List.Perm ord' st.to_visit) :
    halted (stepBatch fetch cfg s st ord') ∨
      mu cfg (stepBatch fetch cfg s st ord') < mu cfg st := by
  by_cases hd : (stepBatch fetch cfg s st ord').done = true
  · exact Or.inl (Or.inr hd)
  · have hK : (cfg.max.toNat : Int) = cfg.max := Int.toNat_of_nonneg (by omega)
    have hcard : ((stepBatch fetch cfg s st ord').visited.length : Int) < cfg.max :=
      (@runBatch_card fetch cfg s (by omega) ord'
        { st with to_visit := [] } hdone hlt).1 (by simpa using hd)
    have hmono : st.visited.length ≤ (stepBatch fetch cfg s st ord').visited.length :=
      @runBatch_visited_len fetch cfg s ord' { st with to_visit := [] }
    by_cases hgrow : st.visited.length < (stepBatch fetch cfg s st ord').visited.length
    · right
      unfold mu
      split <;> split <;> omega
    · have hlen : (stepBatch fetch cfg s st ord').visited.length = st.visited.length := by
        omega
      have hpre : st.visited <+: (stepBatch fetch cfg s st ord').visited :=
        @runBatch_visited_isPre fetch cfg s ord' { st with to_visit := [] }
      have hveq : (stepBatch fetch cfg s st ord').visited = st.visited :=
        (hpre.eq_of_length hlen.symm).symm
      have hdisj : ∀ x ∈ (stepBatch fetch cfg s st ord').to_visit,
          x ∉ (stepBatch fetch cfg s st ord').visited := by
        intro x hx
        have h1 : x ∈ [] ∨ x ∉ st.visited :=
          runBatch_nogrowth hveq x hx
        rcases h1 with h1 | h1
        · exact absurd h1 (List.not_mem_nil x)
        · rw [hveq]; exact h1
      by_cases hd0 : ∀ x ∈ st.to_visit, x ∉ st.visited
      · exfalso
        have hne : ord' ≠ [] := by
          intro h
          rw [h] at hperm
          exact htv hperm.symm.eq_nil
        obtain ⟨u, rest, rfl⟩ := List.exists_cons_of_ne_nil hne
        have hu : u ∈ st.to_visit := hperm.mem_iff.mp (List.mem_cons_self u rest)
        have hufresh : u ∉ st.visited := hd0 u hu
        have hgr : st.visited.length + 1 ≤
            (stepBatch fetch cfg s st (u :: rest)).visited.length :=
          @runBatch_growth fetch cfg s { st with to_visit := [] } u rest hufresh
        omega
      · right
        unfold mu
        rw [if_pos hdisj, if_neg hd0, hlen]
        omega

theorem crawl_descent {fetch : Fetch} {cfg : CrawlConfig} {s : String}
    {ord : Nat → List String → List String} (hval : validOrder ord)
    (hpos : 0 < cfg.max) :
    ∀ n, halted (crawlSteps fetch cfg s ord n) ∨
      mu cfg (crawlSteps fetch cfg s ord n) + n ≤ mu cfg (initState s) := by
  intro n
  induction n with
  | zero => right; rw [crawlSteps_zero]; omega
  | succ n ih =>
    by_cases hh : halted (crawlSteps fetch cfg s ord n)
    · left
      rw [crawlSteps_succ, if_neg]
      · exact hh
      · rintro ⟨h1, h2⟩
        rcases hh with h3 | h3
        · exact h1 h3
        · rw [h3] at h2; cases h2
    · have hg : (crawlSteps fetch cfg s ord n).to_visit ≠ [] ∧
          (crawlSteps fetch cfg s ord n).done = false := by
        unfold halted at hh
        push_neg at hh
        exact ⟨hh.1, by simpa using hh.2⟩
      rw [crawlSteps_succ, if_pos hg]
      have hstep := step_decrease fetch cfg s hpos (crawlSteps fetch cfg s ord n)
        (ord n (crawlSteps fetch cfg s ord n).to_visit) hg.2 hg.1
        ((crawlSteps_card hpos n).1 hg.2)
        (hval n (crawlSteps fetch cfg s ord n).to_visit)
      rcases hstep with h | h
      · exact Or.inl h
      · rcases ih with hih | hih
        · exact absurd hih hh
        · right; omega

theorem crawl_halts {fetch : Fetch} {cfg : CrawlConfig} {s : String}
    {ord : Nat → List String → List String} (hval : validOrder ord)
    (hpos : 0 < cfg.max) :
    halted (crawlSteps fetch cfg s ord (2 * cfg.max.toNat + 1)) := by
  rcases crawl_descent hval hpos (2 * cfg.max.toNat + 1) with h | h
  · exact h
  · rw [mu_initState] at h
    omega

/-! ## The crawl depends only on the `max` and `depth` settings -/

theorem addLinks_cfg {cfg₁ cfg₂ : CrawlConfig} (hd : cfg₁.depth = cfg₂.depth)
    (v tv i : List String) : addLinks cfg₁ v tv i = addLinks cfg₂ v tv i := by
  unfold addLinks
  rw [hd]

theorem commitResult_cfg {cfg₁ cfg₂ : CrawlConfig} (hm : cfg₁.max = cfg₂.max)
    (hd : cfg₁.depth = cfg₂.depth) (st : CrawlState)
    (r : String × List String × List String × List String × List String) :
    commitResult cfg₁ st r = commitResult cfg₂ st r := by
  simp only [commitResult, hm, addLinks_cfg hd]

theorem runBatch_cfg (fetch : Fetch) (s : String) {cfg₁ cfg₂ : CrawlConfig}
    (hm : cfg₁.max = cfg₂.max) (hd : cfg₁.depth = cfg₂.depth) :
    ∀ (l : List String) (st : CrawlState),
      runBatch fetch cfg₁ s st l = runBatch fetch cfg₂ s st l := by
  intro l
  induction l with
  | nil => intro st; rfl
  | cons u rest ih =>
    intro st
    rw [runBatch_cons, runBatch_cons, commitResult_cfg hm hd st (process_url fetch s u)]
    split
    · rfl
    · exact ih _

theorem crawlSteps_cfg (fetch : Fetch) (s : String)
    (ord : Nat → List String → List String) {cfg₁ cfg₂ : CrawlConfig}
    (hm : cfg₁.max = cfg₂.max) (hd : cfg₁.depth = cfg₂.depth) :
    ∀ n, crawlSteps fetch cfg₁ s ord n = crawlSteps fetch cfg₂ s ord n := by
  intro n
  induction n with
  | zero => rfl
  | succ n ih =>
    rw [crawlSteps_succ, crawlSteps_succ, ih]
    split
    · unfold stepBatch
      exact runBatch_cfg fetch s hm hd _ _
    · rfl

/-! ## The fetch branch of the worker -/

theorem process_url_same_host {fetch : Fetch} {s url : String}
    (h : get_hostname url = get_hostname s) :
    process_url fetch s url = (url,
      (split_links s (extract_links fetch url).1).1,
      (split_links s (extract_links fetch url).1).2,
      (extract_links fetch url).2.1, (extract_links fetch url).2.2) := by
  unfold process_url
  rw [if_neg (not_not_intro h)]

/-! ## Folding `set.add` over a list -/

theorem foldl_setAdd_acc_mem (f : String → String) :
    ∀ (ls acc : List String) (y : String), y ∈ acc →
      y ∈ ls.foldl (fun d u => setAdd d (f u)) acc := by
  intro ls
  induction ls with
  | nil => intro acc y h; exact h
  | cons a ls ih => intro acc y h; exact ih _ y (setAdd_sub h)

theorem foldl_setAdd_mem (f : String → String) :
    ∀ (ls acc : List String) (x : String), x ∈ ls →
      f x ∈ ls.foldl (fun d u => setAdd d (f u)) acc := by
  intro ls
  induction ls with
  | nil => intro acc x h; cases h
  | cons a ls ih =>
    intro acc x h
    rcases List.mem_cons.mp h with rfl | h
    · exact foldl_setAdd_acc_mem f ls _ _ mem_setAdd_self
    · exact ih _ x h

/-! ## The claims -/

/-- Claim C1.  The claim says `get_hostname` removes exactly one leading
literal `"www."` from the hostname.  In the code the removal is Python's
`lstrip("www.")`, which strips all leading characters drawn from
`{'w', '.'}`: for `https://www.website.com/` the code produces
`"ebsite.com"`, not the `"website.com"` the claim requires. -/
theorem c1_get_hostname_lstrip_charset :
    get_hostname "https://www.website.com/" = "ebsite.com" ∧
    get_hostname "https://www.website.com/" ≠ "website.com" := by
  decide

/-- Claim C2, counterexample.  With `-m 1`, the seed's own page carries
the internal link `http://s/a`, yet after the max-count trigger fires on
the seed's completion the crawl returns four empty sets: the triggering
task's discovered links and frontier additions are discarded, not
committed. -/
theorem c2_trigger_discards_counterexample :
    (process_url fetchOne "http://s/" "http://s/").2.1 = ["http://s/a"] ∧
    (crawlSteps fetchOne cfgMax1 "http://s/" idOrder 1).done = true ∧
    crawl_website fetchOne cfgMax1 "http://s/" idOrder 1 = ([], [], [], []) ∧
    (crawlSteps fetchOne cfgMax1 "http://s/" idOrder 1).to_visit = [] := by
  decide

/-- Claim C2, amended.  When the max-count trigger fires on a completed
task, the whole batch-processing step returns at once: the triggering
URL is marked visited and `done` is set, while the frontier and all four
accumulators keep exactly the values they had before this completion
(the commits of earlier completions of the batch); the triggering task's
own results and the rest of the batch are discarded. -/
theorem c2_trigger_commits_only_visited (fetch : Fetch) (cfg : CrawlConfig)
    (s : String) (st : CrawlState) (u : String) (rest : List String)
    (hmax : cfg.max ≠ 0)
    (htrig : ((setAdd st.visited u).length : Int) ≥ cfg.max) :
    runBatch fetch cfg s st (u :: rest) =
      { st with visited := setAdd st.visited u, done := true } := by
  have h1 : (process_url fetch s u).1 = u := process_url_fst fetch s u
  rw [runBatch_cons, commitResult_trigger (by rw [h1]; exact ⟨hmax, htrig⟩),
    if_pos rfl, h1]

/-- Claim C2, witness for the amended theorem at a concrete input. -/
theorem c2_trigger_commits_only_visited_witness :
    runBatch fetchOne cfgMax1 "http://s/" (initState "http://s/")
        ("http://s/" :: ["http://s/x"]) =
      { initState "http://s/" with
        visited := setAdd (initState "http://s/").visited "http://s/",
        done := true } :=
  c2_trigger_commits_only_visited fetchOne cfgMax1 "http://s/"
    (initState "http://s/") "http://s/" ["http://s/x"] (by decide) (by decide)

/-- Claim C3.  The claim says a reference starting with `sms:` goes
verbatim to the non-crawlable set and never reaches the raw-links set.
The code compares against the uppercase literal `"SMS:"`
(case-sensitively), so the lowercase reference `sms:+123` falls through
to `urljoin` (which returns it verbatim, `sms` not being a relative
scheme) and lands in the raw-links set, while the non-crawlable set gets
only the `tel:`, `#`, `javascript:` and `data:` references. -/
theorem c3_sms_lowercase_not_noncrawlable :
    extract_links fetchSms "http://s/" =
      (["sms:+123"], [], ["tel:+1", "#a", "javascript:x", "data:y"]) ∧
    "sms:+123" ∈ (extract_links fetchSms "http://s/").1 ∧
    "sms:+123" ∉ (extract_links fetchSms "http://s/").2.2 := by
  decide

/-- Claim C4, counterexample.  With `maxVisited = 2` and a seed page
carrying no links, the crawl halts after one batch with only one URL
visited: termination does not imply `|visited| ≥ maxVisited`, because
the frontier can empty out first. -/
theorem c4_frontier_exhaustion_counterexample :
    cfgMax2.max = 2 ∧
    halted (crawlSteps fetchLeaf cfgMax2 "http://s/" idOrder 1) ∧
    crawlSteps fetchLeaf cfgMax2 "http://s/" idOrder 2 =
      crawlSteps fetchLeaf cfgMax2 "http://s/" idOrder 1 ∧
    (crawlSteps fetchLeaf cfgMax2 "http://s/" idOrder 1).visited.length = 1 := by
  decide

/-- Claim C4, amended.  If `maxVisited = M > 0` the crawl always halts
within `2 * M + 1` batches, whatever the fetched pages contain and in
whatever order completions arrive; when it stops through the max-count
trigger the visited set holds exactly `M` URLs (so `M ≤ |visited| <
M + batch width`), and otherwise (frontier exhausted) `|visited| < M`. -/
theorem c4_termination_bound (fetch : Fetch) (cfg : CrawlConfig) (s : String)
    (ord : Nat → List String → List String) (hval : validOrder ord)
    (hpos : 0 < cfg.max) :
    halted (crawlSteps fetch cfg s ord (2 * cfg.max.toNat + 1)) ∧
    ((crawlSteps fetch cfg s ord (2 * cfg.max.toNat + 1)).done = true →
      (((crawlSteps fetch cfg s ord (2 * cfg.max.toNat + 1)).visited.length : Int)
        = cfg.max)) ∧
    ((crawlSteps fetch cfg s ord (2 * cfg.max.toNat + 1)).done = false →
      (((crawlSteps fetch cfg s ord (2 * cfg.max.toNat + 1)).visited.length : Int)
        < cfg.max)) :=
  ⟨crawl_halts hval hpos, (crawlSteps_card hpos _).2, (crawlSteps_card hpos _).1⟩

/-- Claim C4, witness for the amended theorem at a concrete input. -/
theorem c4_termination_bound_witness :
    halted (crawlSteps fetchOne cfgMax1 "http://s/" idOrder
      (2 * cfgMax1.max.toNat + 1)) ∧
    ((crawlSteps fetchOne cfgMax1 "http://s/" idOrder
        (2 * cfgMax1.max.toNat + 1)).done = true →
      (((crawlSteps fetchOne cfgMax1 "http://s/" idOrder
          (2 * cfgMax1.max.toNat + 1)).visited.length : Int) = cfgMax1.max)) ∧
    ((crawlSteps fetchOne cfgMax1 "http://s/" idOrder
        (2 * cfgMax1.max.toNat + 1)).done = false →
      (((crawlSteps fetchOne cfgMax1 "http://s/" idOrder
          (2 * cfgMax1.max.toNat + 1)).visited.length : Int) < cfgMax1.max)) :=
  c4_termination_bound fetchOne cfgMax1 "http://s/" idOrder
    (fun _ b => List.Perm.refl b) (by decide)

/-- Claim C5, counterexample.  The root links to `a` and `b`; page `a`
also links to `b`.  In the batch `{a, b}`, processing `a` re-queues `b`
(not yet visited at that moment), then `b`'s own completion marks it
visited: after the batch, `b` is simultaneously in the frontier and in
the visited set (and was queued for two different batches, the second
and the third), so frontier/visited disjointness is not an invariant. -/
theorem c5_disjointness_counterexample :
    "http://s/b" ∈ (crawlSteps fetchRace cfgFree "http://s/" idOrder 1).to_visit ∧
    "http://s/b" ∈ (crawlSteps fetchRace cfgFree "http://s/" idOrder 2).to_visit ∧
    "http://s/b" ∈ (crawlSteps fetchRace cfgFree "http://s/" idOrder 2).visited := by
  decide

/-- Claim C5, amended.  At the moment a link is inserted into the
frontier it is neither in the visited set (as updated by the current
completion) nor already in the frontier — the insertion-time guard of
the source holds — but disjointness is not preserved for the rest of the
batch: a queued URL may be visited later in the same batch and fetched
again in the next one. -/
theorem c5_insertion_guard (cfg : CrawlConfig) (st : CrawlState)
    (r : String × List String × List String × List String × List String)
    (x : String) (hx : x ∈ (commitResult cfg st r).to_visit) :
    x ∈ st.to_visit ∨
      (x ∈ r.2.1 ∧ x ∉ setAdd st.visited r.1 ∧ x ∉ st.to_visit) := by
  by_cases htr : cfg.max ≠ 0 ∧ ((setAdd st.visited r.1).length : Int) ≥ cfg.max
  · rw [commitResult_trigger htr] at hx
    exact Or.inl hx
  · rw [commitResult_no_trigger htr] at hx
    rcases addLinks_mem hx with h | ⟨h1, h2, h3, _⟩
    · exact Or.inl h
    · exact Or.inr ⟨h1, h2, h3⟩

/-- Claim C5, witness for the amended theorem at a concrete input. -/
theorem c5_insertion_guard_witness :
    "http://s/a" ∈ ["http://s/"] ∨
      ("http://s/a" ∈ ["http://s/a"] ∧
       "http://s/a" ∉ setAdd ([] : List String) "http://s/" ∧
       "http://s/a" ∉ ["http://s/"]) :=
  c5_insertion_guard cfgFree (initState "http://s/")
    ("http://s/", ["http://s/a"], [], [], []) "http://s/a" (by decide)

/-- Claim C6, counterexample.  The link `http://s/a/?q=1` has a path
already ending in `/`, but `extract_directories` does not return it
unchanged: the URL is rebuilt from scheme, hostname and path only, so
the query string is dropped. -/
theorem c6_trailing_slash_counterexample :
    strEnds (urlsplit "http://s/a/?q=1" "").path "/" = true ∧
    extract_directories ["http://s/a/?q=1"] = ["http://s/a/"] ∧
    "http://s/a/?q=1" ∉ extract_directories ["http://s/a/?q=1"] := by
  decide

/-- Claim C6, amended.  Every link maps to
`scheme://hostname` followed by its directory path: the parsed path
itself when it already ends in `/` (the link is rebuilt, so query,
fragment and port are dropped rather than the link being returned
unchanged), and the path truncated after the last `/` otherwise; in
particular `https://x.com/a/b` and `https://x.com/a/c` both roll up to
the single directory `https://x.com/a/`. -/
theorem c6_directory_mapping :
    (∀ url : String, strEnds (urlsplit url "").path "/" = true →
      directory_of url = (urlsplit url "").scheme ++ "://" ++
        hostnameStr (urlsplit url "").hostname ++ (urlsplit url "").path) ∧
    (∀ (links : List String) (url : String), url ∈ links →
      directory_of url ∈ extract_directories links) ∧
    extract_directories ["https://x.com/a/b", "https://x.com/a/c"] =
      ["https://x.com/a/"] := by
  refine ⟨?_, ?_, by decide⟩
  · intro url h
    simp only [directory_of]
    rw [if_pos h]
  · intro links url h
    exact foldl_setAdd_mem directory_of links [] url h

/-- Claim C6, witness for the amended theorem at a concrete input. -/
theorem c6_directory_mapping_witness :
    directory_of "http://s/a/" = (urlsplit "http://s/a/" "").scheme ++ "://" ++
      hostnameStr (urlsplit "http://s/a/" "").hostname ++
      (urlsplit "http://s/a/" "").path ∧
    directory_of "http://s/x" ∈ extract_directories ["http://s/x"] :=
  ⟨c6_directory_mapping.1 "http://s/a/" (by decide),
   c6_directory_mapping.2.1 ["http://s/x"] "http://s/x" (by decide)⟩

/-- Claim C7, counterexample.  With `-d 1 -m 1`, the seed's page carries
the internal link `http://s/a/b/c` of depth 3; the completion that finds
it also fires the max-count trigger, so the link is never unioned into
the internal accumulator even though it was found on a crawled page:
"found on a crawled page" alone does not guarantee recording. -/
theorem c7_recording_counterexample :
    cfgMax1Depth1.depth = 1 ∧
    get_path_depth "http://s/a/b/c" = 3 ∧
    "http://s/a/b/c" ∈ (process_url fetchDeep "http://s/" "http://s/").2.1 ∧
    (crawlSteps fetchDeep cfgMax1Depth1 "http://s/" idOrder 1).all_internal = [] ∧
    crawlSteps fetchDeep cfgMax1Depth1 "http://s/" idOrder 2 =
      crawlSteps fetchDeep cfgMax1Depth1 "http://s/" idOrder 1 := by
  decide

/-- Claim C7, amended.  The depth limit gates queuing, not recording:
in every committed (non-max-triggering) completion, each discovered
internal link enters the internal accumulator whatever its depth, while
with `maxDepth > 0` a link deeper than `maxDepth` leaves the frontier
unchanged; and at every reachable crawl state every frontier entry is
the seed or has depth at most `maxDepth`.  (When the completion fires
the max-count trigger its links are not recorded at all — that is claim
C2's behaviour, not a depth effect.) -/
theorem c7_depth_gates_queuing :
    (∀ (cfg : CrawlConfig) (st : CrawlState)
      (r : String × List String × List String × List String × List String)
      (link : String), link ∈ r.2.1 →
      ¬(cfg.max ≠ 0 ∧ ((setAdd st.visited r.1).length : Int) ≥ cfg.max) →
      link ∈ (commitResult cfg st r).all_internal ∧
        (0 < cfg.depth → cfg.depth < (get_path_depth link : Int) →
          (link ∈ (commitResult cfg st r).to_visit ↔ link ∈ st.to_visit))) ∧
    (∀ (fetch : Fetch) (cfg : CrawlConfig) (s : String)
      (ord : Nat → List String → List String) (n : Nat) (x : String),
      0 < cfg.depth → x ∈ (crawlSteps fetch cfg s ord n).to_visit →
      x = s ∨ (get_path_depth x : Int) ≤ cfg.depth) := by
  constructor
  · intro cfg st r link hmem hnt
    rw [commitResult_no_trigger hnt]
    refine ⟨setUnion_sub_right hmem, fun hdpos hdeep => ?_⟩
    constructor
    · intro h
      rcases addLinks_mem h with h1 | ⟨_, _, _, h4⟩
      · exact h1
      · rcases h4 with h4 | h4 <;> omega
    · exact fun h => addLinks_sub h
  · intro fetch cfg s ord n x hdpos hx
    refine crawlSteps_to_visit_prop
      (fun y => y = s ∨ (get_path_depth y : Int) ≤ cfg.depth) (Or.inl rfl)
      (fun url y _ hd => ?_) n x hx
    rcases hd with hd | hd
    · omega
    · exact Or.inr hd

/-- Claim C7, witness for the amended theorem at a concrete input. -/
theorem c7_depth_gates_queuing_witness :
    ("http://s/a/b/c" ∈ (commitResult cfgDepth2 (initState "http://s/")
        ("http://s/", ["http://s/a/b/c"], [], [], [])).all_internal ∧
      (0 < cfgDepth2.depth →
        cfgDepth2.depth < (get_path_depth "http://s/a/b/c" : Int) →
        ("http://s/a/b/c" ∈ (commitResult cfgDepth2 (initState "http://s/")
            ("http://s/", ["http://s/a/b/c"], [], [], [])).to_visit ↔
          "http://s/a/b/c" ∈ (initState "http://s/").to_visit))) ∧
    ("http://s/" = "http://s/" ∨
      (get_path_depth "http://s/" : Int) ≤ cfgDepth2.depth) :=
  ⟨c7_depth_gates_queuing.1 cfgDepth2 (initState "http://s/")
      ("http://s/", ["http://s/a/b/c"], [], [], []) "http://s/a/b/c"
      (by decide) (by decide),
   c7_depth_gates_queuing.2 fetchDeep cfgDepth2 "http://s/" idOrder 0
      "http://s/" (by decide) (by decide)⟩

/-- Claim C8.  A URL whose fetch raises, or returns a status outside
`[200, 400)`, or a non-HTML content type, yields the empty extraction
result; the worker's four result sets are then all empty, and when the
max-count trigger does not fire the only state change of its completion
is that the URL is marked visited — the loop then continues with the
remaining completions of the batch. -/
theorem c8_failed_fetch_empty_and_continue (fetch : Fetch) (s u : String)
    (hfail : fetch u = none ∨ ∃ resp, fetch u = some resp ∧
      (¬(200 ≤ resp.status_code ∧ resp.status_code < 400) ∨
       ¬(listHasSub "html".data resp.content_type.data = true))) :
    extract_links fetch u = ([], [], []) ∧
    process_url fetch s u = (u, [], [], [], []) ∧
    (∀ (cfg : CrawlConfig) (st : CrawlState) (rest : List String),
      st.done = false →
      ¬(cfg.max ≠ 0 ∧ ((setAdd st.visited u).length : Int) ≥ cfg.max) →
      runBatch fetch cfg s st (u :: rest) =
        runBatch fetch cfg s { st with visited := setAdd st.visited u } rest ∧
      u ∈ (runBatch fetch cfg s st (u :: rest)).visited) := by
  have hext : extract_links fetch u = ([], [], []) := by
    rcases hfail with h | ⟨resp, h, hbad⟩
    · unfold extract_links
      rw [h]
    · unfold extract_links
      rw [h]
      show (if ¬(200 ≤ resp.status_code ∧ resp.status_code < 400) then
          (([], [], []) : List String × List String × List String)
        else if ¬(listHasSub "html".data resp.content_type.data = true) then ([], [], [])
        else classifyRefs u resp.refs) = ([], [], [])
      by_cases hst : 200 ≤ resp.status_code ∧ resp.status_code < 400
      · have hb : ¬(listHasSub "html".data resp.content_type.data = true) := by
          rcases hbad with hb | hb
          · exact absurd hst hb
          · exact hb
        rw [if_neg (not_not_intro hst), if_pos hb]
      · rw [if_pos hst]
  have hproc : process_url fetch s u = (u, [], [], [], []) := by
    unfold process_url
    split
    · rfl
    · simp only [hext]
      rfl
  refine ⟨hext, hproc, ?_⟩
  intro cfg st rest hdone hnt
  have hcr : commitResult cfg st (process_url fetch s u) =
      { st with visited := setAdd st.visited u } := by
    rw [hproc, commitResult_no_trigger hnt]
    rfl
  have heq : runBatch fetch cfg s st (u :: rest) =
      runBatch fetch cfg s { st with visited := setAdd st.visited u } rest := by
    rw [runBatch_cons, hcr, if_neg (by simp [hdone])]
  refine ⟨heq, ?_⟩
  rw [heq]
  exact @runBatch_visited_sub fetch cfg s rest
    { st with visited := setAdd st.visited u } _ mem_setAdd_self

/-- Claim C8, witness at a concrete input: fetching `http://s/x` raises
a transport error under `fetchLeaf`. -/
theorem c8_failed_fetch_empty_and_continue_witness :
    extract_links fetchLeaf "http://s/x" = ([], [], []) ∧
    process_url fetchLeaf "http://s/" "http://s/x" = ("http://s/x", [], [], [], []) ∧
    (runBatch fetchLeaf cfgFree "http://s/" (initState "http://s/") ["http://s/x"] =
      runBatch fetchLeaf cfgFree "http://s/"
        { initState "http://s/" with
          visited := setAdd (initState "http://s/").visited "http://s/x" } [] ∧
     "http://s/x" ∈ (runBatch fetchLeaf cfgFree "http://s/"
        (initState "http://s/") ["http://s/x"]).visited) := by
  have h := c8_failed_fetch_empty_and_continue fetchLeaf "http://s/" "http://s/x"
    (Or.inl (by decide))
  exact ⟨h.1, h.2.1, h.2.2 cfgFree (initState "http://s/") [] rfl (by decide)⟩

/-- Claim C9.  Every URL that is ever in the frontier has the same
www-stripped hostname as the seed (the initial frontier holds the seed
itself, and only links classified internal are queued); consequently
every dispatched URL takes the worker's fetch branch — the
external-hostname skip branch is never taken, and no external URL is
ever fetched. -/
theorem c9_frontier_same_host :
    (∀ (fetch : Fetch) (cfg : CrawlConfig) (s : String)
      (ord : Nat → List String → List String) (n : Nat) (x : String),
      x ∈ (crawlSteps fetch cfg s ord n).to_visit →
      get_hostname x = get_hostname s) ∧
    (∀ (fetch : Fetch) (s url : String), get_hostname url = get_hostname s →
      process_url fetch s url = (url,
        (split_links s (extract_links fetch url).1).1,
        (split_links s (extract_links fetch url).1).2,
        (extract_links fetch url).2.1, (extract_links fetch url).2.2)) := by
  constructor
  · intro fetch cfg s ord n x hx
    exact crawlSteps_to_visit_prop (fun y => get_hostname y = get_hostname s) rfl
      (fun url y hy _ => process_url_internal_host hy) n x hx
  · intro fetch s url h
    exact process_url_same_host h

/-- Claim C9, witness at a concrete input. -/
theorem c9_frontier_same_host_witness :
    get_hostname "http://s/a" = get_hostname "http://s/" ∧
    process_url fetchOne "http://s/" "http://s/" = ("http://s/",
      (split_links "http://s/" (extract_links fetchOne "http://s/").1).1,
      (split_links "http://s/" (extract_links fetchOne "http://s/").1).2,
      (extract_links fetchOne "http://s/").2.1,
      (extract_links fetchOne "http://s/").2.2) :=
  ⟨c9_frontier_same_host.1 fetchOne cfgFree "http://s/" idOrder 1 "http://s/a"
      (by decide),
   c9_frontier_same_host.2 fetchOne "http://s/" "http://s/" rfl⟩

/-- Claim C10.  For a fixed transport, seed, completion order, fuel,
thread count, max count and depth limit, the four link sets returned by
the crawl do not depend on the `verbose` or `full_links` flags: those
flags only drive printing, which the crawl state never reads. -/
theorem c10_flags_do_not_affect_results (fetch : Fetch) (s : String)
    (ord : Nat → List String → List String) (fuel : Nat)
    (cfg₁ cfg₂ : CrawlConfig) (_ht : cfg₁.threads = cfg₂.threads)
    (hm : cfg₁.max = cfg₂.max) (hd : cfg₁.depth = cfg₂.depth) :
    crawl_website fetch cfg₁ s ord fuel = crawl_website fetch cfg₂ s ord fuel := by
  unfold crawl_website
  rw [crawlSteps_cfg fetch s ord hm hd fuel]

/-- Claim C10, witness: the same crawl with `-v -f` switched on and off. -/
theorem c10_flags_do_not_affect_results_witness :
    crawl_website fetchOne cfgMax1 "http://s/" idOrder 2 =
      crawl_website fetchOne cfgMax1Loud "http://s/" idOrder 2 :=
  c10_flags_do_not_affect_results fetchOne "http://s/" idOrder 2
    cfgMax1 cfgMax1Loud rfl rfl rfl

end Sitemapper
